import Mathlib

/-!
Verification of the cache transfer orchestrator of buildkit-cache-dance.

The development embeds the TypeScript sources shallowly:

* a model of the Node.js posix `path` functions (`normalize`, `join`,
  `basename`, `isAbsolute`) at the character-list level, used by
  `src/opts.ts`;
* the pure option/validation helpers of `src/opts.ts`
  (`getTargetPath`, `getMountArgsString`, `getUID`, `getGID`,
  `sanitizeForDockerfile`, `validateSafePath`, `generateUniqueSuffix`,
  `getUtilityImage`);
* the cache-map resolution of `src/opts.ts` (`getCacheMap`,
  `getCacheMapFromDockerfile`) over the parsed configuration and the
  parsed mount flags;
* the Dancefile generation slice of the two inject implementations
  (`src/inject-cache.ts` and the rsync-capable variant), and a trace
  model of `extractCache` of `src/extract-cache.ts` in which every
  external call is an `Action` answered by an engine oracle.
-/

namespace CacheDance

/-! ## Node posix path model (character level) -/

/-- Split a character list on the separator, like a split on the slash
character: the result always has one more piece than separators. -/
def splitChars : List Char → List (List Char)
  | [] => [[]]
  | c :: rest =>
    match splitChars rest with
    | [] => [[]]
    | s :: ss => if c = '/' then [] :: s :: ss else (c :: s) :: ss

/-- Join pieces with a separator character. -/
def joinWith (sep : Char) : List (List Char) → List Char
  | [] => []
  | [x] => x
  | x :: y :: rest => x ++ sep :: joinWith sep (y :: rest)

/-- One step of the Node `normalizeString` segment resolution: empty and
dot segments are dropped, a dot-dot segment pops the stack (or is kept at
the root when `allow` is set, as for relative paths), and any other
segment is pushed. -/
def segStep (allow : Bool) (stack : List (List Char)) (seg : List Char) : List (List Char) :=
  if seg = [] ∨ seg = ['.'] then stack
  else if seg = ['.', '.'] then
    match stack with
    | top :: rest => if top = ['.', '.'] then (if allow then seg :: stack else stack) else rest
    | [] => if allow then [seg] else []
  else seg :: stack

/-- Resolve the segments of a path, as Node `normalizeString` does;
the result is in path order. -/
def normalizeSegsCh (allow : Bool) (segs : List (List Char)) : List (List Char) :=
  (segs.foldl (segStep allow) []).reverse

/-- Node `path.posix.normalize` on a character list. -/
def normalizeCh (p : List Char) : List Char :=
  match p with
  | [] => ['.']
  | c :: _ =>
    let abs := c = '/'
    let trail := p.getLast? = some '/'
    let body := joinWith '/' (normalizeSegsCh (!abs) (splitChars p))
    if body = [] then
      if abs then ['/'] else if trail then ['.', '/'] else ['.']
    else
      (if abs then ['/'] else []) ++ body ++ (if trail then ['/'] else [])

/-- Node `path.posix.join` of two parts on character lists: empty parts
are skipped, the rest is concatenated with a separator and normalized. -/
def posixJoinCh (a b : List Char) : List Char :=
  if a = [] then (if b = [] then ['.'] else normalizeCh b)
  else if b = [] then normalizeCh a
  else normalizeCh (a ++ '/' :: b)

/-- Trailing separators of a character list are dropped. -/
def dropTrailingSep (l : List Char) : List Char :=
  (l.reverse.dropWhile (· = '/')).reverse

/-- Node `path.posix.basename` (without a suffix argument) on character
lists: trailing separators are ignored and the last component returned. -/
def basenameCh (l : List Char) : List Char :=
  ((dropTrailingSep l).reverse.takeWhile (· ≠ '/')).reverse

/-- Node `path.posix.isAbsolute` on character lists. -/
def isAbsCh : List Char → Bool
  | [] => false
  | c :: _ => c = '/'

/-- String wrapper for `normalizeCh`. -/
def posixNormalize (p : String) : String := String.mk (normalizeCh p.data)

/-- String wrapper for `posixJoinCh`. -/
def posixJoin (a b : String) : String := String.mk (posixJoinCh a.data b.data)

/-- String wrapper for `basenameCh`. -/
def posixBasename (p : String) : String := String.mk (basenameCh p.data)

/-- String wrapper for `isAbsCh`. -/
def posixIsAbsolute (p : String) : Bool := isAbsCh p.data

/-- A path contains a parent-directory segment when one of its
slash-separated pieces is the dot-dot segment. -/
def hasParentSeg (p : String) : Bool :=
  (splitChars p.data).any (· = ['.', '.'])

/-! ## Option helpers of `src/opts.ts` -/

/-- A `cache-map` value: either a bare target path string, or a structured
record of mount options (values already stringified, as the source only
ever calls `toString` on them). -/
inductive CacheOptions where
  | str (target : String)
  | obj (fields : List (String × String))
deriving DecidableEq, Repr

/-- `getTargetPath` of `src/opts.ts`: the bare string is the target; a
structured record must carry a `target` key, otherwise an error. -/
def getTargetPath : CacheOptions → Except String String
  | .str s => .ok s
  | .obj fields =>
    match fields.lookup ("target") with
    | some t => .ok t
    | none => .error ("Expected the target key in the cache options")

/-- `getUID` of `src/opts.ts`. -/
def getUID : CacheOptions → String
  | .str _ => ""
  | .obj fields => (fields.lookup ("uid")).getD ("")

/-- `getGID` of `src/opts.ts`. -/
def getGID : CacheOptions → String
  | .str _ => ""
  | .obj fields => (fields.lookup ("gid")).getD ("")

/-- `getMountArgsString` of `src/opts.ts`. -/
def getMountArgsString : CacheOptions → String
  | .str s => "type=cache,target=" ++ s
  | .obj fields =>
    "type=cache," ++ String.intercalate (",") (fields.map (fun kv => kv.1 ++ "=" ++ kv.2))

/-- The character whitelist of `sanitizeForDockerfile`:
alphanumeric, slash, dot, underscore, dash, equals, comma. -/
def dockerfileSafeChar (c : Char) : Bool :=
  c.isAlpha || c.isDigit || c == '/' || c == '.' || c == '_' || c == '-' || c == '=' || c == ','

/-- `sanitizeForDockerfile` of `src/opts.ts`: the value must be a
non-empty string of whitelisted characters. -/
def sanitizeForDockerfile (value : String) : Except String String :=
  if !value.data.isEmpty && value.data.all dockerfileSafeChar then .ok value
  else .error ("Unsafe characters in value for Dockerfile: " ++ value)

/-- The shell metacharacters rejected by `validateSafePath`
(the character class of its `dangerousChars` regex). -/
def dangerousChar (c : Char) : Bool :=
  [';', '|', '&', '$', '\x60', '\\', '\x27', '\x22', '<', '>',
   '(', ')', '\x7b', '\x7d', '[', ']', '!', '#', '*', '?', '~'].contains c

/-- Substring containment on character lists (the `String.includes` of
the source). -/
def containsSeq (pat : List Char) : List Char → Bool
  | [] => pat.isEmpty
  | c :: rest => List.isPrefixOf pat (c :: rest) || containsSeq pat rest

/-- `validateSafePath` of `src/opts.ts`: rejects absolute paths, then
paths whose normalized form starts with two dots or contains the
slash-dot-dot substring, then paths with shell metacharacters. -/
def validateSafePath (pathStr : String) (label : String) : Except String Unit :=
  if posixIsAbsolute pathStr then
    .error (label ++ " must be a relative path, got absolute path: " ++ pathStr)
  else if List.isPrefixOf ['.', '.'] (normalizeCh pathStr.data) ||
      containsSeq ['/', '.', '.'] (normalizeCh pathStr.data) then
    .error (label ++ " contains path traversal sequence: " ++ pathStr)
  else if pathStr.data.any dangerousChar then
    .error (label ++ " contains potentially dangerous characters: " ++ pathStr)
  else .ok ()

/-- The per-character replacement of `generateUniqueSuffix`: any
character outside the alphanumeric class becomes a dash. -/
def replaceNonAlnum (l : List Char) : List Char :=
  l.map (fun c => if c.isAlpha || c.isDigit then c else '-')

/-- Collapse of consecutive dashes (the `-+` to `-` replacement). -/
def collapseD : List Char → List Char
  | [] => []
  | [c] => [c]
  | a :: b :: rest =>
    if a = '-' ∧ b = '-' then collapseD (b :: rest) else a :: collapseD (b :: rest)

/-- The leading-edge trim of the anchored `^-` alternative: at most one
leading dash is removed. -/
def trimLeadOne : List Char → List Char
  | [] => []
  | c :: rest => if c = '-' then rest else c :: rest

/-- The trailing-edge trim of the anchored `-$` alternative: at most one
trailing dash is removed. -/
def trimTrailOne (l : List Char) : List Char :=
  (trimLeadOne l.reverse).reverse

/-- `generateUniqueSuffix` of `src/opts.ts`: replace every character
outside the alphanumeric class with a dash, collapse runs of dashes,
strip one leading and one trailing dash, then lower-case. -/
def generateUniqueSuffix (s : String) : String :=
  String.mk ((trimTrailOne (trimLeadOne (collapseD (replaceNonAlnum s.data)))).map Char.toLower)

/-- All leading dashes dropped. -/
def dropLeadAll (l : List Char) : List Char := l.dropWhile (· = '-')

/-- All trailing dashes dropped. -/
def dropTrailAll (l : List Char) : List Char := (l.reverse.dropWhile (· = '-')).reverse

/-- The `uniqueSuffix` transform as the specification words it: replace
every character outside the alphanumeric class with a separator, collapse
consecutive separators, trim all leading and trailing separators,
lower-case. Kept separate from `generateUniqueSuffix` so the two can be
compared. -/
def uniqueSuffixSpec (s : String) : String :=
  String.mk ((dropTrailAll (dropLeadAll (collapseD (replaceNonAlnum s.data)))).map Char.toLower)

/-! ## Opts and utility image -/

/-- The option record of `src/opts.ts`, restricted to the fields the
verified components read. -/
structure Opts where
  extract : Bool
  cacheMapRaw : String
  dockerfile : String
  cacheDir : Option String
  scratchDir : String
  skipExtraction : Bool
  utilityImage : String
  builder : Option String
  isDebugFlag : Bool
  rsyncMode : Bool
deriving DecidableEq, Repr

def DEFAULT_UTILITY_IMAGE : String := "ghcr.io/containerd/busybox:latest"

def RSYNC_UTILITY_IMAGE : String := "ghcr.io/hiromaily/cache-dance-rsync:latest"

/-- `isRsyncMode` of `src/opts.ts`. -/
def isRsyncMode (opts : Opts) : Bool := opts.rsyncMode

/-- `getUtilityImage` of `src/opts.ts`: a custom image (a non-empty
string different from the default) always wins; otherwise the rsync image
when rsync mode is on, else the default busybox image. -/
def getUtilityImage (opts : Opts) : String :=
  let userSpecified := opts.utilityImage
  if userSpecified.data.isEmpty = false ∧ userSpecified ≠ DEFAULT_UTILITY_IMAGE then
    userSpecified
  else if isRsyncMode opts then
    RSYNC_UTILITY_IMAGE
  else
    DEFAULT_UTILITY_IMAGE

/-! ## Cache map resolution of `src/opts.ts` -/

/-- A parsed `RUN` cache-mount flag: the values of its `id` and `target`
options as the Dockerfile parser reports them. -/
structure MountFlag where
  idOpt : Option String
  targetOpt : Option String
deriving DecidableEq, Repr

/-- The JavaScript `a || b` on optional strings: an absent or empty
left-hand side falls through to the right-hand side. -/
def jsOrString : Option String → Option String → Option String
  | some s, b => if s = "" then b else some s
  | none, b => b

/-- The fixed sentinel target the auto-discovery emits for every entry. -/
def targetSentinel : String := "/var/cache-target"

/-- The per-flag resolution step of `getCacheMapFromDockerfile` of
`src/opts.ts`: derive the identity from the `id` option falling back to
`target`, fail when that leaves nothing, and key the entry by the base
name of the identity, joined under the bind root when one is given.
Returns the host-side key together with the derived identity. -/
def resolveFlag (flag : MountFlag) (bindRoot : Option String) :
    Except String (String × String) :=
  match jsOrString flag.idOpt flag.targetOpt with
  | none => .error ("cache mount must define id or target")
  | some id =>
    let normalizedId := posixBasename id
    let bindDir :=
      match bindRoot with
      | some root => posixJoin root normalizedId
      | none => normalizedId
    .ok (bindDir, id)

/-- Assignment `m[k] = v` on a JavaScript object modeled as an ordered
association list: an existing key keeps its position and is overwritten,
a new key is appended. -/
def jsAssign (m : List (String × α)) (k : String) (v : α) : List (String × α) :=
  if m.any (fun p => p.1 = k) then
    m.map (fun p => if p.1 = k then (k, v) else p)
  else m ++ [(k, v)]

/-- The value object `{id, target}` the auto-discovery stores for a
discovered flag. -/
def cacheEntryOptions (id : String) : CacheOptions :=
  .obj [("id", id), ("target", targetSentinel)]

/-- The loop of `getCacheMapFromDockerfile`: resolve each cache-mount
flag in order, aborting on the first failure. -/
def discoverFold (bindRoot : Option String) :
    List MountFlag → List (String × CacheOptions) → Except String (List (String × CacheOptions))
  | [], acc => .ok acc
  | f :: fs, acc =>
    match resolveFlag f bindRoot with
    | .error e => .error e
    | .ok (k, id) => discoverFold bindRoot fs (jsAssign acc k (cacheEntryOptions id))

/-- `getCacheMapFromDockerfile` of `src/opts.ts`, over the list of
cache-mount flags the Dockerfile parser found. -/
def getCacheMapFromDockerfile (flags : List MountFlag) (bindRoot : Option String) :
    Except String (List (String × CacheOptions)) :=
  discoverFold bindRoot flags []

/-- The `cache-dir` prefixing loop of `getCacheMap`: every source key is
stripped to its base name and joined under the cache directory. -/
def prefixMap (cacheDir : String) (m : List (String × CacheOptions)) :
    List (String × CacheOptions) :=
  m.foldl (fun acc p => jsAssign acc (posixJoin cacheDir (posixBasename p.1)) p.2) []

/-- `getCacheMap` of `src/opts.ts` over the parsed configuration map: a
non-empty map is returned verbatim, or prefixed under a non-empty
`cache-dir`; an empty map falls back to Dockerfile auto-discovery. -/
def getCacheMap (rawMap : List (String × CacheOptions)) (cacheDir : Option String)
    (flags : List MountFlag) : Except String (List (String × CacheOptions)) :=
  if rawMap.length ≠ 0 then
    match cacheDir with
    | some d => if d ≠ "" then .ok (prefixMap d rawMap) else .ok rawMap
    | none => .ok rawMap
  else
    (getCacheMapFromDockerfile flags cacheDir).mapError
      (fun e => "Failed to parse cache map. " ++ e)

/-! ## Dancefile generation of the inject implementations -/

/-- The Dancefile generation slice of `injectCache` in the rsync-capable
implementation: the target path and the mount-argument string are passed
through `sanitizeForDockerfile` before any recipe text is produced. -/
def injectDancefile (cacheOptions : CacheOptions) (containerImage : String)
    (rsyncEnabled : Bool) : Except String String := do
  let targetPath ← getTargetPath cacheOptions
  let mountArgs := getMountArgsString cacheOptions
  let _ ← sanitizeForDockerfile targetPath
  let _ ← sanitizeForDockerfile mountArgs
  let uid := getUID cacheOptions
  let gid := getGID cacheOptions
  let ownershipCommand :=
    if uid ≠ "" ∨ gid ≠ "" then "&& chown -R " ++ uid ++ ":" ++ gid ++ " " ++ targetPath
    else ""
  if rsyncEnabled then
    return "\nFROM " ++ containerImage ++
      "\nCOPY buildstamp buildstamp\nRUN --mount=" ++ mountArgs ++
      " \\\n    --mount=type=bind,source=.,target=/var/dance-cache \\\n    rsync -a --ignore-existing /var/dance-cache/ " ++
      targetPath ++ "/ " ++ ownershipCommand ++ " || true\n"
  else
    return "\nFROM " ++ containerImage ++
      "\nCOPY buildstamp buildstamp\nRUN --mount=" ++ mountArgs ++
      " \\\n    --mount=type=bind,source=.,target=/var/dance-cache \\\n    cp -p -R /var/dance-cache/. " ++
      targetPath ++ " " ++ ownershipCommand ++ " || true\n"

/-- The Dancefile generation slice of `injectCache` in
`src/inject-cache.ts`: the recipe is produced directly from the target
path and mount-argument string, with no validation gate. -/
def injectDancefileV1 (cacheOptions : CacheOptions) (containerImage : String) :
    Except String String := do
  let targetPath ← getTargetPath cacheOptions
  let mountArgs := getMountArgsString cacheOptions
  let uid := getUID cacheOptions
  let gid := getGID cacheOptions
  let ownershipCommand :=
    if uid ≠ "" ∨ gid ≠ "" then "&& chown -R " ++ uid ++ ":" ++ gid ++ " " ++ targetPath
    else ""
  return "\nFROM " ++ containerImage ++
    "\nCOPY buildstamp buildstamp\nRUN --mount=" ++ mountArgs ++
    " \\\n    --mount=type=bind,source=.,target=/var/dance-cache \\\n    cp -p -R /var/dance-cache/. " ++
    targetPath ++ " " ++ ownershipCommand ++ " || true\n"

/-- The Dancefile generation slice of `extractCache` in
`src/extract-cache.ts`, gates included. -/
def extractDancefile (cacheOptions : CacheOptions) (containerImage : String) :
    Except String String := do
  let targetPath ← getTargetPath cacheOptions
  let mountArgs := getMountArgsString cacheOptions
  let _ ← sanitizeForDockerfile targetPath
  let _ ← sanitizeForDockerfile mountArgs
  return "\nFROM " ++ containerImage ++
    "\nCOPY buildstamp buildstamp\nRUN --mount=" ++ mountArgs ++
    " \\\n    mkdir -p /var/dance-cache/ \\\n    && cp -p -R " ++ targetPath ++
    "/. /var/dance-cache/ || true\n"

/-! ## Trace model of `extractCache` of `src/extract-cache.ts`

Every external call (filesystem operation or container-engine
invocation) is one `Action`; an engine oracle answers whether a call
succeeds. The function returns the list of attempted calls in order,
together with the overall result. -/

inductive Action where
  | fsRmScratch
  | fsMkdirScratch
  | fsWriteBuildstamp
  | fsWriteDancefile
  | inspectDir
  | fsMkdirCacheSource
  | build
  | rmContainer
  | dockerRunRsync
  | createContainer
  | pipedCopy
  | sudoRmRfCacheSource
  | renameCache
  | rmImage
deriving DecidableEq, Repr

/-- The `try` block of `extractCache`: the image build, then either the
rsync transfer (container force-removed first, failures of that removal
ignored) or the bulk-copy transfer (container force-removed, created,
stream-copied, the host directory replaced, and the container removed
again on the success path only). -/
def extractTransfer (rsyncEnabled debugEnabled : Bool) (eng : Action → Bool)
    (tr : List Action) : List Action × Except String Unit :=
  let tr := tr ++ [Action.build]
  if !eng Action.build then (tr, .error ("engine error: build")) else
  if rsyncEnabled then
    let tr := tr ++ [Action.rmContainer]
    let tr := tr ++ [Action.dockerRunRsync]
    if !eng Action.dockerRunRsync then (tr, .error ("engine error: docker run rsync")) else
    let tr := if debugEnabled then tr ++ [Action.inspectDir] else tr
    (tr, .ok ())
  else
    let tr := tr ++ [Action.rmContainer]
    let tr := tr ++ [Action.createContainer]
    if !eng Action.createContainer then (tr, .error ("engine error: create container")) else
    let tr := tr ++ [Action.pipedCopy]
    if !eng Action.pipedCopy then (tr, .error ("engine error: piped copy")) else
    let tr := if debugEnabled then tr ++ [Action.inspectDir] else tr
    let tr := tr ++ [Action.sudoRmRfCacheSource]
    if !eng Action.sudoRmRfCacheSource then (tr, .error ("engine error: sudo rm -rf")) else
    let tr := tr ++ [Action.renameCache]
    if !eng Action.renameCache then (tr, .error ("fs error: rename")) else
    let tr := tr ++ [Action.rmContainer]
    let tr := if debugEnabled then tr ++ [Action.inspectDir] else tr
    (tr, .ok ())

/-- `extractCache` of `src/extract-cache.ts`: safety validation, scratch
preparation, Dancefile synthesis (with its gates), the transfer inside
`try`, and the unconditional image removal in `finally` whose failure is
ignored. -/
def extractCache (cacheSource : String) (cacheOptions : CacheOptions) (scratchDir : String)
    (containerImage : String) (debugEnabled rsyncEnabled : Bool) (eng : Action → Bool) :
    List Action × Except String Unit :=
  match validateSafePath cacheSource ("cache source") with
  | .error e => ([], .error e)
  | .ok _ =>
  match validateSafePath scratchDir ("scratch directory") with
  | .error e => ([], .error e)
  | .ok _ =>
  let tr := [Action.fsRmScratch]
  if !eng Action.fsRmScratch then (tr, .error ("fs error: rm scratch")) else
  let tr := tr ++ [Action.fsMkdirScratch]
  if !eng Action.fsMkdirScratch then (tr, .error ("fs error: mkdir scratch")) else
  let tr := tr ++ [Action.fsWriteBuildstamp]
  if !eng Action.fsWriteBuildstamp then (tr, .error ("fs error: write buildstamp")) else
  match extractDancefile cacheOptions containerImage with
  | .error e => (tr, .error e)
  | .ok _ =>
  let tr := tr ++ [Action.fsWriteDancefile]
  if !eng Action.fsWriteDancefile then (tr, .error ("fs error: write dancefile")) else
  let tr := if debugEnabled then tr ++ [Action.inspectDir] else tr
  let tr := tr ++ [Action.fsMkdirCacheSource]
  if !eng Action.fsMkdirCacheSource then (tr, .error ("fs error: mkdir cache source")) else
  let (tr, res) := extractTransfer rsyncEnabled debugEnabled eng tr
  (tr ++ [Action.rmImage], res)

/-- An engine override that changes only the answers for the two cleanup
removals (image and container). -/
def cleanupOverride (eng : Action → Bool) (b c : Bool) : Action → Bool :=
  fun a =>
    match a with
    | Action.rmImage => b
    | Action.rmContainer => c
    | _ => eng a

/-- The suffix of a trace strictly after the first container creation. -/
def afterCreate (tr : List Action) : List Action :=
  (tr.dropWhile (· ≠ Action.createContainer)).drop 1

/-- A usable host cache root: non-empty, relative, without parent
segments, and with at least one real component. -/
def safeRoot (d : String) : Prop :=
  d ≠ "" ∧ posixIsAbsolute d = false ∧
    (∀ s ∈ splitChars d.data, s ≠ ['.', '.']) ∧
    (∃ s ∈ splitChars d.data, ¬(s = [] ∨ s = ['.']))

/-- The host-side key the auto-discovery derives for an identity. -/
def discoveryKey (bindRoot : Option String) (id : String) : String :=
  match bindRoot with
  | some root => posixJoin root (posixBasename id)
  | none => posixBasename id

/-- The sample structured cache options of the Go module cache. -/
def goModOptions : CacheOptions :=
  .obj [("target", "/go/pkg/mod"), ("id", "go-mod")]

/-- The sample structured cache options of the Go build cache. -/
def goBuildOptions : CacheOptions :=
  .obj [("target", "/root/.cache/go-build"), ("id", "go-build")]

/-- An engine oracle on which only the piped copy step fails. -/
def engPipedCopyFails : Action → Bool :=
  fun a => if a = Action.pipedCopy then false else true

/-- The adjacency relation forbidding two consecutive dashes. -/
def NoTwoDashes (a b : Char) : Prop := ¬(a = '-' ∧ b = '-')

instance : DecidableRel NoTwoDashes := fun a b =>
  inferInstanceAs (Decidable (¬(a = '-' ∧ b = '-')))

/-- Boolean checker for the absence of two consecutive dashes. -/
def noAdjDashB : List Char → Bool
  | a :: b :: rest => !(a = '-' && b = '-') && noAdjDashB (b :: rest)
  | _ => true

/-- The characters a canonical name token may use: lowercase letters,
digits, and the dash. -/
def canonChars : List Char :=
  ['a', 'b', 'c', 'd', 'e', 'f', 'g', 'h', 'i', 'j', 'k', 'l', 'm',
   'n', 'o', 'p', 'q', 'r', 's', 't', 'u', 'v', 'w', 'x', 'y', 'z',
   '0', '1', '2', '3', '4', '5', '6', '7', '8', '9', '-']

/-- A canonical name token: non-empty, made of lowercase alphanumerics
and dashes, with no dash run and no dash at either edge. -/
def canonicalToken (s : String) : Prop :=
  s.data ≠ [] ∧ (∀ c ∈ s.data, c ∈ canonChars) ∧
    s.data.Chain' NoTwoDashes ∧ s.data.head? ≠ some '-' ∧ s.data.getLast? ≠ some '-'

/-! ## Lemmas on the path model -/

theorem splitChars_cons_eq (c : Char) (rest : List Char) (s : List Char)
    (ss : List (List Char)) (h : splitChars rest = s :: ss) :
    splitChars (c :: rest) = if c = '/' then [] :: s :: ss else (c :: s) :: ss := by
  simp only [splitChars]
  rw [h]

theorem splitChars_ne_nil (l : List Char) : splitChars l ≠ [] := by
  induction l with
  | nil => simp [splitChars]
  | cons c rest ih =>
    rcases h : splitChars rest with _ | ⟨s, ss⟩
    · exact absurd h ih
    · rw [splitChars_cons_eq c rest s ss h]
      by_cases hc : c = '/' <;> simp [hc]

theorem splitChars_append (x y : List Char) :
    splitChars (x ++ '/' :: y) = splitChars x ++ splitChars y := by
  induction x with
  | nil =>
    rcases h : splitChars y with _ | ⟨s, ss⟩
    · exact absurd h (splitChars_ne_nil y)
    · rw [List.nil_append, splitChars_cons_eq '/' y s ss h]
      simp [splitChars, h]
  | cons c x ih =>
    rcases h : splitChars x with _ | ⟨s, ss⟩
    · exact absurd h (splitChars_ne_nil x)
    · have hx : splitChars (x ++ '/' :: y) = s :: (ss ++ splitChars y) := by
        rw [ih, h, List.cons_append]
      rw [List.cons_append, splitChars_cons_eq c _ s (ss ++ splitChars y) hx,
        splitChars_cons_eq c x s ss h]
      by_cases hc : c = '/' <;> simp [hc]

theorem mem_splitChars_no_slash (l : List Char) : ∀ s ∈ splitChars l, '/' ∉ s := by
  induction l with
  | nil => simp [splitChars]
  | cons c rest ih =>
    rcases h : splitChars rest with _ | ⟨s, ss⟩
    · exact absurd h (splitChars_ne_nil rest)
    · rw [splitChars_cons_eq c rest s ss h]
      rw [h] at ih
      by_cases hc : c = '/'
      · rw [if_pos hc]
        intro t ht
        rcases List.mem_cons.mp ht with rfl | ht'
        · simp
        · exact ih t ht'
      · rw [if_neg hc]
        intro t ht
        rcases List.mem_cons.mp ht with rfl | ht'
        · intro hmem
          rcases List.mem_cons.mp hmem with h1 | h1
          · exact hc h1.symm
          · exact ih s (List.mem_cons_self s ss) h1
        · exact ih t (List.mem_cons_of_mem s ht')

theorem splitChars_no_slash_eq (l : List Char) (h : '/' ∉ l) : splitChars l = [l] := by
  induction l with
  | nil => simp [splitChars]
  | cons c rest ih =>
    have hc : c ≠ '/' := fun hh => h (hh ▸ List.mem_cons_self c rest)
    have hr : '/' ∉ rest := fun hh => h (List.mem_cons_of_mem c hh)
    rw [splitChars_cons_eq c rest rest [] (ih hr), if_neg hc]

theorem joinWith_cons (e : List Char) (L : List (List Char)) :
    ∃ t, joinWith '/' (e :: L) = e ++ t := by
  cases L with
  | nil => exact ⟨[], by simp [joinWith]⟩
  | cons y L' => exact ⟨'/' :: joinWith '/' (y :: L'), rfl⟩

theorem splitChars_joinWith (L : List (List Char)) (hne : L ≠ [])
    (h : ∀ e ∈ L, '/' ∉ e) : splitChars (joinWith '/' L) = L := by
  induction L with
  | nil => exact absurd rfl hne
  | cons x L ih =>
    cases L with
    | nil => simpa [joinWith] using splitChars_no_slash_eq x (h x (by simp))
    | cons y L' =>
      have hx : '/' ∉ x := h x (by simp)
      have hrest : ∀ e ∈ y :: L', '/' ∉ e := fun e he => h e (List.mem_cons_of_mem x he)
      simp only [joinWith]
      rw [splitChars_append, splitChars_no_slash_eq x hx, ih (by simp) hrest]
      simp

theorem foldl_segStep_no_dotdot (segs : List (List Char))
    (h : ∀ s ∈ segs, s ≠ ['.', '.']) (st : List (List Char)) :
    segs.foldl (segStep true) st =
      (segs.filter (fun s => !decide (s = [] ∨ s = ['.']))).reverse ++ st := by
  induction segs generalizing st with
  | nil => simp
  | cons s segs ih =>
    have hs : s ≠ ['.', '.'] := h s (by simp)
    have hrest : ∀ t ∈ segs, t ≠ ['.', '.'] := fun t ht => h t (List.mem_cons_of_mem s ht)
    simp only [List.foldl_cons, List.filter_cons]
    by_cases h1 : s = [] ∨ s = ['.']
    · rw [show segStep true st s = st by simp [segStep, h1]]
      simp [h1, ih hrest st]
    · rw [show segStep true st s = s :: st by simp [segStep, h1, hs]]
      simp [h1, ih hrest (s :: st), List.append_assoc]

theorem joinWith_stack_parts (st : List (List Char)) (hne : st ≠ [])
    (hgood : ∀ e ∈ st, e ≠ [] ∧ '/' ∉ e ∧ e ≠ ['.', '.']) :
    (∀ s ∈ splitChars (joinWith '/' st), s ≠ ['.', '.']) ∧
      isAbsCh (joinWith '/' st) = false ∧ joinWith '/' st ≠ [] := by
  have hsp : splitChars (joinWith '/' st) = st :=
    splitChars_joinWith st hne (fun e he => (hgood e he).2.1)
  refine ⟨fun s hs => (hgood s (hsp ▸ hs)).2.2, ?_, ?_⟩
  · rcases st with _ | ⟨e, L⟩
    · exact absurd rfl hne
    · obtain ⟨t, ht⟩ := joinWith_cons e L
      rcases e with _ | ⟨c, e'⟩
      · exact absurd rfl (hgood [] (by simp)).1
      · have hc : c ≠ '/' :=
          fun hh => (hgood (c :: e') (by simp)).2.1 (hh ▸ List.mem_cons_self c e')
        rw [ht, List.cons_append]
        simp [isAbsCh, hc]
  · rcases st with _ | ⟨e, L⟩
    · exact absurd rfl hne
    · obtain ⟨t, ht⟩ := joinWith_cons e L
      rw [ht]
      have he : e ≠ [] := (hgood e (by simp)).1
      rcases e with _ | ⟨c, e'⟩
      · exact absurd rfl he
      · simp

theorem lastChar_append (l1 l2 : List Char) (h : l2 ≠ []) :
    (l1 ++ l2).getLast? = l2.getLast? := by
  induction l1 with
  | nil => simp
  | cons c l1 ih =>
    rcases hx : l1 ++ l2 with _ | ⟨d, t⟩
    · exact absurd (List.append_eq_nil.mp hx).2 h
    · rw [List.cons_append, hx, List.getLast?_cons_cons, ← hx, ih]

theorem mem_of_lastChar (l : List Char) (x : Char) (h : l.getLast? = some x) : x ∈ l := by
  induction l with
  | nil => simp at h
  | cons c rest ih =>
    rcases rest with _ | ⟨d, t⟩
    · simp at h
      simp [h]
    · rw [List.getLast?_cons_cons] at h
      exact List.mem_cons_of_mem c (ih h)

theorem normalizeCh_rel_eq (c : Char) (rest : List Char) (hc : c ≠ '/') :
    normalizeCh (c :: rest) =
      (if joinWith '/' (normalizeSegsCh true (splitChars (c :: rest))) = [] then
        (if (c :: rest).getLast? = some '/' then ['.', '/'] else ['.'])
      else
        joinWith '/' (normalizeSegsCh true (splitChars (c :: rest))) ++
          (if (c :: rest).getLast? = some '/' then ['/'] else [])) := by
  simp only [normalizeCh]
  simp [hc]

theorem normalizeSegsCh_root (S : List (List Char)) (hdd : ∀ s ∈ S, s ≠ ['.', '.']) :
    normalizeSegsCh true S = S.filter (fun s => !decide (s = [] ∨ s = ['.'])) := by
  unfold normalizeSegsCh
  rw [foldl_segStep_no_dotdot S hdd []]
  simp

theorem posixJoinCh_safe_aux (d b : List Char)
    (hd_ne : d ≠ []) (hd_abs : isAbsCh d = false)
    (hdd : ∀ s ∈ splitChars d, s ≠ ['.', '.'])
    (hx : ∃ s ∈ splitChars d, ¬(s = [] ∨ s = ['.']))
    (hb : '/' ∉ b) :
    (∀ s ∈ splitChars (posixJoinCh d b), s ≠ ['.', '.']) ∧
      isAbsCh (posixJoinCh d b) = false := by
  rcases d with _ | ⟨c, d0⟩
  · exact absurd rfl hd_ne
  have hc : c ≠ '/' := by simpa [isAbsCh] using hd_abs
  have hFmem : ∀ e ∈ (splitChars (c :: d0)).filter (fun s => !decide (s = [] ∨ s = ['.'])),
      e ≠ [] ∧ '/' ∉ e ∧ e ≠ ['.', '.'] := by
    intro e he
    have h1 := List.mem_filter.mp he
    refine ⟨?_, mem_splitChars_no_slash _ e h1.1, hdd e h1.1⟩
    have h2 := h1.2
    simp only [Bool.not_eq_eq_eq_not, Bool.not_true, decide_eq_false_iff_not] at h2
    exact fun hcon => h2 (Or.inl hcon)
  have hFne : (splitChars (c :: d0)).filter (fun s => !decide (s = [] ∨ s = ['.'])) ≠ [] := by
    obtain ⟨s, hs, hsn⟩ := hx
    exact List.ne_nil_of_mem (List.mem_filter.mpr ⟨hs, by simpa using hsn⟩)
  by_cases hbnil : b = []
  · subst hbnil
    rw [show posixJoinCh (c :: d0) [] = normalizeCh (c :: d0) by simp [posixJoinCh]]
    rw [normalizeCh_rel_eq c d0 hc, normalizeSegsCh_root _ hdd]
    obtain ⟨hall, habs2, hne2⟩ := joinWith_stack_parts _ hFne hFmem
    rw [if_neg hne2]
    by_cases ht : (c :: d0).getLast? = some '/'
    · rw [if_pos ht]
      constructor
      · intro s hs
        have hsp : splitChars (joinWith '/'
            ((splitChars (c :: d0)).filter (fun s => !decide (s = [] ∨ s = ['.']))) ++ ['/']) =
            splitChars (joinWith '/'
              ((splitChars (c :: d0)).filter (fun s => !decide (s = [] ∨ s = ['.'])))) ++ [[]] := by
          have h3 := splitChars_append (joinWith '/'
            ((splitChars (c :: d0)).filter (fun s => !decide (s = [] ∨ s = ['.'])))) []
          simpa [splitChars] using h3
        rw [hsp] at hs
        rcases List.mem_append.mp hs with h1 | h1
        · exact hall s h1
        · simp only [List.mem_singleton] at h1
          subst h1
          simp
      · rcases hbody : joinWith '/'
            ((splitChars (c :: d0)).filter (fun s => !decide (s = [] ∨ s = ['.']))) with _ | ⟨x, t⟩
        · exact absurd hbody hne2
        · rw [hbody] at habs2
          simpa [isAbsCh] using habs2
    · rw [if_neg ht, List.append_nil]
      exact ⟨hall, habs2⟩
  · rw [show posixJoinCh (c :: d0) b = normalizeCh ((c :: d0) ++ '/' :: b) by
      simp [posixJoinCh, hbnil]]
    have happ : (c :: d0) ++ '/' :: b = c :: (d0 ++ '/' :: b) := rfl
    rw [happ, normalizeCh_rel_eq c _ hc]
    have htrail : ¬((c :: (d0 ++ '/' :: b)).getLast? = some '/') := by
      have h4 : (c :: (d0 ++ '/' :: b)).getLast? = b.getLast? := by
        rw [show c :: (d0 ++ '/' :: b) = ((c :: d0) ++ ['/']) ++ b by simp]
        exact lastChar_append _ b hbnil
      rw [h4]
      intro hcon
      exact hb (mem_of_lastChar b '/' hcon)
    have hsplit : splitChars (c :: (d0 ++ '/' :: b)) = splitChars (c :: d0) ++ [b] := by
      rw [← happ, splitChars_append, splitChars_no_slash_eq b hb]
    rw [hsplit]
    have hns : normalizeSegsCh true (splitChars (c :: d0) ++ [b]) =
        (segStep true ((splitChars (c :: d0)).filter
          (fun s => !decide (s = [] ∨ s = ['.']))).reverse b).reverse := by
      unfold normalizeSegsCh
      rw [List.foldl_append, foldl_segStep_no_dotdot _ hdd []]
      simp
    rw [hns]
    have hst2good : ∀ e ∈ segStep true ((splitChars (c :: d0)).filter
        (fun s => !decide (s = [] ∨ s = ['.']))).reverse b,
        e ≠ [] ∧ '/' ∉ e ∧ e ≠ ['.', '.'] := by
      intro e he
      by_cases h1 : b = [] ∨ b = ['.']
      · rw [show segStep true _ b = ((splitChars (c :: d0)).filter
          (fun s => !decide (s = [] ∨ s = ['.']))).reverse by simp [segStep, h1]] at he
        exact hFmem e (List.mem_reverse.mp he)
      · by_cases h2 : b = ['.', '.']
        · rcases hrev : ((splitChars (c :: d0)).filter
              (fun s => !decide (s = [] ∨ s = ['.']))).reverse with _ | ⟨top, rest2⟩
          · exact absurd (by simpa using hrev) hFne
          · have htop : top ≠ ['.', '.'] :=
              (hFmem top (List.mem_reverse.mp (hrev ▸ List.mem_cons_self top rest2))).2.2
            rw [show segStep true ((splitChars (c :: d0)).filter
                (fun s => !decide (s = [] ∨ s = ['.']))).reverse b = rest2 by
              rw [hrev]; simp [segStep, h1, h2, htop]] at he
            exact hFmem e (List.mem_reverse.mp
              (hrev ▸ List.mem_cons_of_mem top he))
        · rw [show segStep true ((splitChars (c :: d0)).filter
              (fun s => !decide (s = [] ∨ s = ['.']))).reverse b =
              b :: ((splitChars (c :: d0)).filter
                (fun s => !decide (s = [] ∨ s = ['.']))).reverse by
            simp [segStep, h1, h2]] at he
          rcases List.mem_cons.mp he with rfl | he'
          · exact ⟨hbnil, hb, h2⟩
          · exact hFmem e (List.mem_reverse.mp he')
    by_cases hst2nil : (segStep true ((splitChars (c :: d0)).filter
        (fun s => !decide (s = [] ∨ s = ['.']))).reverse b).reverse = []
    · rw [hst2nil]
      rw [show joinWith '/' ([] : List (List Char)) = [] from rfl]
      rw [if_pos rfl, if_neg htrail]
      exact ⟨by decide, by decide⟩
    · obtain ⟨hall, habs2, hne2⟩ := joinWith_stack_parts _ hst2nil
        (fun e he => hst2good e (List.mem_reverse.mp he))
      rw [if_neg hne2, if_neg htrail, List.append_nil]
      exact ⟨hall, habs2⟩

theorem basenameCh_no_slash (l : List Char) : '/' ∉ basenameCh l := by
  unfold basenameCh
  intro h
  have h1 := List.mem_takeWhile_imp (List.mem_reverse.mp h)
  simp at h1

theorem posixJoin_key_safe (d : String) (hsafe : safeRoot d) (i : String) :
    hasParentSeg (posixJoin d (posixBasename i)) = false ∧
      posixIsAbsolute (posixJoin d (posixBasename i)) = false := by
  obtain ⟨h1, h2, h3, h4⟩ := hsafe
  have hdne : d.data ≠ [] := by
    intro hh
    apply h1
    obtain ⟨l⟩ := d
    simp only at hh
    subst hh
    rfl
  have hmain := posixJoinCh_safe_aux d.data (basenameCh i.data) hdne h2 h3 h4
    (basenameCh_no_slash i.data)
  constructor
  · have hdata : (posixJoin d (posixBasename i)).data =
        posixJoinCh d.data (basenameCh i.data) := rfl
    unfold hasParentSeg
    rw [hdata, List.any_eq_false]
    intro x hx
    simpa using hmain.1 x hx
  · exact hmain.2

theorem resolveFlag_ok_key (f : MountFlag) (root : Option String) (k i : String)
    (h : resolveFlag f root = .ok (k, i)) : k = discoveryKey root i := by
  unfold resolveFlag at h
  rcases hj : jsOrString f.idOpt f.targetOpt with _ | id0
  · rw [hj] at h
    cases h
  · rw [hj] at h
    simp only [Except.ok.injEq, Prod.mk.injEq] at h
    obtain ⟨hk, hi⟩ := h
    subst hi
    unfold discoveryKey
    cases root <;> simpa using hk.symm

theorem jsAssign_mem {α : Type} (m : List (String × α)) (k : String) (v : α)
    (kv : String × α) (h : kv ∈ jsAssign m k v) : kv ∈ m ∨ kv = (k, v) := by
  unfold jsAssign at h
  split at h
  · obtain ⟨p, hp, he⟩ := List.mem_map.mp h
    by_cases hpk : p.1 = k
    · right
      rw [if_pos hpk] at he
      exact he.symm
    · left
      rw [if_neg hpk] at he
      exact he ▸ hp
  · rcases List.mem_append.mp h with h1 | h1
    · exact Or.inl h1
    · right
      simpa using h1

theorem discoverFold_mem (root : Option String) (fs : List MountFlag)
    (acc res : List (String × CacheOptions)) (h : discoverFold root fs acc = .ok res) :
    ∀ kv ∈ res, kv ∈ acc ∨ ∃ f ∈ fs, ∃ i, resolveFlag f root = .ok (kv.1, i) ∧
      kv.2 = cacheEntryOptions i := by
  induction fs generalizing acc with
  | nil =>
    intro kv hkv
    left
    unfold discoverFold at h
    simp only [Except.ok.injEq] at h
    exact h ▸ hkv
  | cons f fs ih =>
    intro kv hkv
    unfold discoverFold at h
    rcases hr : resolveFlag f root with e | ⟨k, i⟩
    · rw [hr] at h
      cases h
    · rw [hr] at h
      rcases ih (jsAssign acc k (cacheEntryOptions i)) h kv hkv with hin | hex
      · rcases jsAssign_mem acc k (cacheEntryOptions i) kv hin with h1 | h1
        · exact Or.inl h1
        · subst h1
          exact Or.inr ⟨f, List.mem_cons_self f fs, i, hr, rfl⟩
      · obtain ⟨g, hg, i2, hg2, hg3⟩ := hex
        exact Or.inr ⟨g, List.mem_cons_of_mem f hg, i2, hg2, hg3⟩

theorem mem_prefixFold (d : String) (l : List (String × CacheOptions))
    (acc : List (String × CacheOptions)) :
    ∀ kv ∈ l.foldl (fun a p => jsAssign a (posixJoin d (posixBasename p.1)) p.2) acc,
      kv ∈ acc ∨ ∃ p ∈ l, kv = (posixJoin d (posixBasename p.1), p.2) := by
  induction l generalizing acc with
  | nil =>
    intro kv h
    exact Or.inl h
  | cons p l ih =>
    intro kv h
    simp only [List.foldl_cons] at h
    rcases ih (jsAssign acc (posixJoin d (posixBasename p.1)) p.2) kv h with h1 | h1
    · rcases jsAssign_mem acc (posixJoin d (posixBasename p.1)) p.2 kv h1 with h2 | h2
      · exact Or.inl h2
      · exact Or.inr ⟨p, List.mem_cons_self p l, h2⟩
    · obtain ⟨q, hq, hkv⟩ := h1
      exact Or.inr ⟨q, List.mem_cons_of_mem p hq, hkv⟩

theorem jsAssign_fresh {α : Type} (m : List (String × α)) (k : String) (v : α)
    (h : ∀ p ∈ m, p.1 ≠ k) : jsAssign m k v = m ++ [(k, v)] := by
  have hcond : m.any (fun p => p.1 = k) = false := by
    rw [List.any_eq_false]
    intro p hp
    simpa using h p hp
  unfold jsAssign
  rw [hcond]
  simp

theorem prefixFold_nodup (d : String) (l acc : List (String × CacheOptions))
    (hnd : (l.map (fun p => posixJoin d (posixBasename p.1))).Nodup)
    (hacc : ∀ p ∈ acc, ∀ q ∈ l, p.1 ≠ posixJoin d (posixBasename q.1)) :
    l.foldl (fun a p => jsAssign a (posixJoin d (posixBasename p.1)) p.2) acc =
      acc ++ l.map (fun p => (posixJoin d (posixBasename p.1), p.2)) := by
  induction l generalizing acc with
  | nil => simp
  | cons p l ih =>
    have hnd1 : posixJoin d (posixBasename p.1) ∉
        l.map (fun q => posixJoin d (posixBasename q.1)) ∧
        (l.map (fun q => posixJoin d (posixBasename q.1))).Nodup := by
      rw [List.map_cons] at hnd
      exact List.nodup_cons.mp hnd
    simp only [List.foldl_cons, List.map_cons]
    rw [jsAssign_fresh acc (posixJoin d (posixBasename p.1)) p.2
      (fun q hq => hacc q hq p (List.mem_cons_self p l))]
    rw [ih (acc ++ [(posixJoin d (posixBasename p.1), p.2)]) hnd1.2 (by
      intro q hq r hr
      rcases List.mem_append.mp hq with h1 | h1
      · exact hacc q h1 r (List.mem_cons_of_mem p hr)
      · simp only [List.mem_singleton] at h1
        subst h1
        show posixJoin d (posixBasename p.1) ≠ posixJoin d (posixBasename r.1)
        intro hcon
        exact hnd1.1 (by rw [hcon]; exact List.mem_map.mpr ⟨r, hr, rfl⟩))]
    simp

theorem jsOrString_eq_none (a b : Option String) :
    jsOrString a b = none ↔ (a = none ∨ a = some "") ∧ b = none := by
  rcases a with _ | s
  · simp [jsOrString]
  · by_cases hs : s = ""
    · subst hs
      simp [jsOrString]
    · simp [jsOrString, hs]

/-- C1 counterexample: a cache-mount flag whose `id` option is present
but empty resolves its identity to the target path, not to the set `id`
option, because the fallback uses JavaScript truthiness. -/
theorem resolveFlag_emptyId_counterexample :
    (MountFlag.mk (some "") (some "/tmp/cache")).idOpt = some "" ∧
    resolveFlag (MountFlag.mk (some "") (some "/tmp/cache")) none =
      .ok ("cache", "/tmp/cache") ∧
    ("/tmp/cache" : String) ≠ "" := by
  refine ⟨rfl, rfl, by decide⟩

/-- C1 amended: the identity of a discovered cache-mount flag is the
`id` option when it is set to a non-empty value and otherwise the
`target` option; the host-side key is the base name of the identity,
joined under the bind root when one is set; resolution fails exactly
when the flag has neither a non-empty `id` nor a `target`; and every
entry of the discovered map arises from some flag this way. -/
theorem resolveFlag_characterization (flag : MountFlag) (root : Option String) :
    (∀ s, flag.idOpt = some s → s ≠ "" →
      resolveFlag flag root = .ok (discoveryKey root s, s)) ∧
    ((flag.idOpt = none ∨ flag.idOpt = some "") → ∀ t, flag.targetOpt = some t →
      resolveFlag flag root = .ok (discoveryKey root t, t)) ∧
    ((∃ e, resolveFlag flag root = .error e) ↔
      ((flag.idOpt = none ∨ flag.idOpt = some "") ∧ flag.targetOpt = none)) ∧
    (∀ flags res, getCacheMapFromDockerfile flags root = .ok res →
      ∀ kv ∈ res, ∃ f ∈ flags, ∃ i, resolveFlag f root = .ok (kv.1, i) ∧
        kv.1 = discoveryKey root i ∧ kv.2 = cacheEntryOptions i) := by
  refine ⟨?_, ?_, ?_, ?_⟩
  · intro s hs hne
    unfold resolveFlag
    rw [hs]
    rw [show jsOrString (some s) flag.targetOpt = some s by simp [jsOrString, hne]]
    cases root <;> rfl
  · intro hid t ht
    unfold resolveFlag
    have hj : jsOrString flag.idOpt flag.targetOpt = some t := by
      rcases hid with h1 | h1 <;> rw [h1, ht] <;> simp [jsOrString]
    rw [hj]
    cases root <;> rfl
  · constructor
    · intro ⟨e, he⟩
      unfold resolveFlag at he
      rcases hj : jsOrString flag.idOpt flag.targetOpt with _ | i
      · exact (jsOrString_eq_none flag.idOpt flag.targetOpt).mp hj
      · rw [hj] at he
        cases he
    · intro hc
      refine ⟨"cache mount must define id or target", ?_⟩
      unfold resolveFlag
      rw [(jsOrString_eq_none flag.idOpt flag.targetOpt).mpr hc]
  · intro flags res h kv hkv
    rcases discoverFold_mem root flags [] res h kv hkv with h1 | ⟨f, hf, i, hok, hval⟩
    · simp at h1
    · exact ⟨f, hf, i, hok, resolveFlag_ok_key f root kv.1 i hok, hval⟩

/-- C1 witness: the characterization applied to a flag with a non-empty
id under a bind root. -/
theorem resolveFlag_characterization_app :
    resolveFlag (MountFlag.mk (some "cache2") (some "/tmp/cache")) (some "cm") =
      .ok ("cm/cache2", "cache2") := by
  have h := (resolveFlag_characterization (MountFlag.mk (some "cache2") (some "/tmp/cache"))
    (some "cm")).1 "cache2" rfl (by decide)
  rw [h]
  rfl

/-- C2 counterexample: with no host cache root set, the resolver returns
the adversarial configuration key verbatim, parent-directory segments
included, refuting the claim for the root-unset case. -/
theorem getCacheMap_noRoot_counterexample :
    getCacheMap [("../../etc", CacheOptions.str "/x")] none [] =
      .ok [("../../etc", CacheOptions.str "/x")] ∧
    hasParentSeg ("../../etc") = true := ⟨rfl, by decide⟩

/-- C2 amended: when a host cache root is set and is itself a safe
relative path (non-empty, not absolute, without parent segments, with at
least one real component), every key the resolver returns — from the
explicit-map branch or the auto-discovery branch — contains no
parent-directory segment and no absolute prefix. -/
theorem getCacheMap_rootSet_keys_safe (m : List (String × CacheOptions)) (d : String)
    (flags : List MountFlag) (res : List (String × CacheOptions))
    (hsafe : safeRoot d) (h : getCacheMap m (some d) flags = .ok res) :
    ∀ kv ∈ res, hasParentSeg kv.1 = false ∧ posixIsAbsolute kv.1 = false := by
  intro kv hkv
  unfold getCacheMap at h
  by_cases hm : m.length ≠ 0
  · rw [if_pos hm] at h
    simp only at h
    rw [if_pos hsafe.1] at h
    simp only [Except.ok.injEq] at h
    subst h
    rcases mem_prefixFold d m [] kv hkv with h1 | ⟨p, hp, hs⟩
    · simp at h1
    · rw [hs]
      exact posixJoin_key_safe d hsafe p.1
  · rw [if_neg hm] at h
    rcases hdf : getCacheMapFromDockerfile flags (some d) with e | res2
    · rw [hdf] at h
      simp [Except.mapError] at h
    · rw [hdf] at h
      simp only [Except.mapError, Except.ok.injEq] at h
      subst h
      rcases discoverFold_mem (some d) flags [] res2 hdf kv hkv with h1 | ⟨f, hf, i, hok, hval⟩
      · simp at h1
      · rw [resolveFlag_ok_key f (some d) kv.1 i hok]
        exact posixJoin_key_safe d hsafe i

/-- C2 witness: the safety theorem applied to the adversarial entry
under the root `cache-mount`. -/
theorem getCacheMap_rootSet_keys_safe_app :
    hasParentSeg ("cache-mount/etc") = false ∧ posixIsAbsolute ("cache-mount/etc") = false := by
  have h := getCacheMap_rootSet_keys_safe [("../../etc", CacheOptions.str "/x")]
    ("cache-mount") [] [("cache-mount/etc", CacheOptions.str "/x")]
    (by refine ⟨by decide, by decide, by decide, by decide⟩) rfl
    ("cache-mount/etc", CacheOptions.str "/x") (by simp)
  exact h

/-- C4: a structured configuration value without the `target` field
always fails target resolution with the configuration error, and a
successful resolution always returns the stored target, never a
default. -/
theorem getTargetPath_missing_target :
    (∀ fields : List (String × String), fields.lookup ("target") = none →
      getTargetPath (.obj fields) =
        .error ("Expected the target key in the cache options")) ∧
    (∀ (fields : List (String × String)) (t : String),
      getTargetPath (.obj fields) = .ok t → fields.lookup ("target") = some t) := by
  constructor
  · intro fields h
    simp only [getTargetPath]
    rw [h]
  · intro fields t h
    simp only [getTargetPath] at h
    rcases hl : fields.lookup ("target") with _ | t2
    · rw [hl] at h
      cases h
    · rw [hl] at h
      simp only [Except.ok.injEq] at h
      rw [h]

/-- C4 witness: the failure case applied to an object carrying only an
id field. -/
theorem getTargetPath_missing_target_app :
    getTargetPath (.obj [("id", "go-mod")]) =
      .error ("Expected the target key in the cache options") :=
  getTargetPath_missing_target.1 [("id", "go-mod")] (by decide)

/-- C6: resolving the Go-module cache map under the host cache root
`cache-mount` yields the key `cache-mount/go-mod` with the structured
options preserved verbatim; and in general, with a root set and no key
collisions after rewriting, every key becomes the root joined with the
key base component while values are kept unchanged. -/
theorem getCacheMap_prefix_preserves :
    (getCacheMap [("go-mod", goModOptions)] (some "cache-mount") [] =
      .ok [("cache-mount/go-mod", goModOptions)]) ∧
    (∀ (m : List (String × CacheOptions)) (d : String) (flags : List MountFlag)
      (res : List (String × CacheOptions)),
      d ≠ "" → m ≠ [] → getCacheMap m (some d) flags = .ok res →
      ∀ kv ∈ res, ∃ p ∈ m, kv = (posixJoin d (posixBasename p.1), p.2)) ∧
    (∀ (m : List (String × CacheOptions)) (d : String) (flags : List MountFlag),
      d ≠ "" → m ≠ [] →
      (m.map (fun p => posixJoin d (posixBasename p.1))).Nodup →
      getCacheMap m (some d) flags =
        .ok (m.map (fun p => (posixJoin d (posixBasename p.1), p.2)))) := by
  refine ⟨rfl, ?_, ?_⟩
  · intro m d flags res hd hm h kv hkv
    have hlen : m.length ≠ 0 := fun hh => hm (List.length_eq_zero.mp hh)
    unfold getCacheMap at h
    rw [if_pos hlen] at h
    simp only at h
    rw [if_pos hd] at h
    simp only [Except.ok.injEq] at h
    subst h
    rcases mem_prefixFold d m [] kv hkv with h1 | h1
    · simp at h1
    · exact h1
  · intro m d flags hd hm hnd
    have hlen : m.length ≠ 0 := fun hh => hm (List.length_eq_zero.mp hh)
    unfold getCacheMap
    rw [if_pos hlen]
    simp only
    rw [if_pos hd]
    unfold prefixMap
    rw [prefixFold_nodup d m [] hnd (by simp)]
    simp

/-- C6 witness: the general prefix rule applied to the two-entry Go
cache map. -/
theorem getCacheMap_prefix_preserves_app :
    getCacheMap [("go-mod", goModOptions), ("go-build", goBuildOptions)]
      (some "cache-mount") [] =
      .ok [("cache-mount/go-mod", goModOptions), ("cache-mount/go-build", goBuildOptions)] := by
  have h := getCacheMap_prefix_preserves.2.2
    [("go-mod", goModOptions), ("go-build", goBuildOptions)] ("cache-mount") []
    (by decide) (by decide) (by decide)
  rw [h]
  rfl

/-! ## Lemmas on the unique-suffix transform -/

theorem trimLeadOne_cons (c : Char) (rest : List Char) :
    trimLeadOne (c :: rest) = if c = '-' then rest else c :: rest := rfl

theorem collapseD_head (rest : List Char) (b : Char) :
    ∃ t, collapseD (b :: rest) = b :: t := by
  induction rest generalizing b with
  | nil => exact ⟨[], rfl⟩
  | cons c r ih =>
    by_cases h : b = '-' ∧ c = '-'
    · obtain ⟨t, ht⟩ := ih c
      refine ⟨t, ?_⟩
      rw [show collapseD (b :: c :: r) = collapseD (c :: r) by simp [collapseD, h], ht, h.1, h.2]
    · exact ⟨collapseD (c :: r), by simp [collapseD, h]⟩

theorem chain_collapseD (l : List Char) : (collapseD l).Chain' NoTwoDashes := by
  induction l with
  | nil => simp [collapseD]
  | cons a l ih =>
    cases l with
    | nil => simp [collapseD]
    | cons b r =>
      by_cases h : a = '-' ∧ b = '-'
      · rw [show collapseD (a :: b :: r) = collapseD (b :: r) by simp [collapseD, h]]
        exact ih
      · rw [show collapseD (a :: b :: r) = a :: collapseD (b :: r) by simp [collapseD, h]]
        obtain ⟨t, ht⟩ := collapseD_head r b
        rw [ht]
        rw [ht] at ih
        exact List.Chain'.cons h ih

theorem chain_trimLeadOne (l : List Char) (h : l.Chain' NoTwoDashes) :
    (trimLeadOne l).Chain' NoTwoDashes := by
  cases l with
  | nil => simp [trimLeadOne]
  | cons c rest =>
    rw [trimLeadOne_cons]
    by_cases hc : c = '-'
    · rw [if_pos hc]
      exact h.tail
    · rwa [if_neg hc]

theorem chain_reverse_noTwoDashes (l : List Char) (h : l.Chain' NoTwoDashes) :
    l.reverse.Chain' NoTwoDashes := by
  rw [List.chain'_reverse]
  exact h.imp (fun a b hab => fun hcon => hab ⟨hcon.2, hcon.1⟩)

theorem trimLead_eq_dropLead (l : List Char) (h : l.Chain' NoTwoDashes) :
    trimLeadOne l = dropLeadAll l := by
  cases l with
  | nil => rfl
  | cons c rest =>
    rw [trimLeadOne_cons]
    by_cases hc : c = '-'
    · rw [if_pos hc]
      subst hc
      rw [show dropLeadAll ('-' :: rest) = dropLeadAll rest by simp [dropLeadAll]]
      cases rest with
      | nil => rfl
      | cons d t =>
        have hd : d ≠ '-' := by
          have := List.chain'_cons.mp h
          intro hcon
          exact this.1 ⟨rfl, hcon⟩
        simp [dropLeadAll, hd]
    · rw [if_neg hc]
      simp [dropLeadAll, hc]

theorem trimTrail_eq_dropTrail (l : List Char) (h : l.Chain' NoTwoDashes) :
    trimTrailOne l = dropTrailAll l := by
  unfold trimTrailOne dropTrailAll
  rw [trimLead_eq_dropLead l.reverse (chain_reverse_noTwoDashes l h)]
  rfl

/-- C7: the unique-suffix transform of the source (replace, collapse,
strip one dash at each edge, lower-case) agrees with the specification
wording (trim all leading and trailing separators) on every input, and
takes the documented values on the three sample paths. -/
theorem generateUniqueSuffix_spec_equiv :
    (∀ s : String, generateUniqueSuffix s = uniqueSuffixSpec s) ∧
    generateUniqueSuffix ("/var/cache/apt") = "var-cache-apt" ∧
    generateUniqueSuffix ("go-mod") = "go-mod" ∧
    generateUniqueSuffix ("//var//cache//") = "var-cache" := by
  refine ⟨?_, rfl, rfl, rfl⟩
  intro s
  unfold generateUniqueSuffix uniqueSuffixSpec
  have hch := chain_collapseD (replaceNonAlnum s.data)
  have hch2 : (dropLeadAll (collapseD (replaceNonAlnum s.data))).Chain' NoTwoDashes := by
    rw [← trimLead_eq_dropLead _ hch]
    exact chain_trimLeadOne _ hch
  rw [trimLead_eq_dropLead _ hch, trimTrail_eq_dropTrail _ hch2]

theorem chain_iff_noAdjDashB (l : List Char) :
    l.Chain' NoTwoDashes ↔ noAdjDashB l = true := by
  induction l with
  | nil => simp [noAdjDashB]
  | cons a l ih =>
    cases l with
    | nil => simp [noAdjDashB]
    | cons b r =>
      rw [List.chain'_cons, ih]
      by_cases ha : a = '-' <;> by_cases hb : b = '-' <;>
        simp [noAdjDashB, NoTwoDashes, ha, hb]

theorem canon_replace_id (c : Char) (h : c ∈ canonChars) :
    (if c.isAlpha || c.isDigit then c else '-') = c := by
  fin_cases h <;> decide

theorem canon_toLower_id (c : Char) (h : c ∈ canonChars) : c.toLower = c := by
  fin_cases h <;> decide

theorem replaceNonAlnum_id (l : List Char) (h : ∀ c ∈ l, c ∈ canonChars) :
    replaceNonAlnum l = l := by
  induction l with
  | nil => rfl
  | cons c rest ih =>
    unfold replaceNonAlnum
    simp only [List.map_cons]
    rw [canon_replace_id c (h c (List.mem_cons_self c rest))]
    have := ih (fun d hd => h d (List.mem_cons_of_mem c hd))
    unfold replaceNonAlnum at this
    rw [this]

theorem mapToLower_id (l : List Char) (h : ∀ c ∈ l, c ∈ canonChars) :
    l.map Char.toLower = l := by
  induction l with
  | nil => rfl
  | cons c rest ih =>
    simp only [List.map_cons]
    rw [canon_toLower_id c (h c (List.mem_cons_self c rest)),
      ih (fun d hd => h d (List.mem_cons_of_mem c hd))]

theorem collapseD_id_of_chain (l : List Char) (h : l.Chain' NoTwoDashes) :
    collapseD l = l := by
  induction l with
  | nil => rfl
  | cons a l ih =>
    cases l with
    | nil => rfl
    | cons b r =>
      have h1 := List.chain'_cons.mp h
      by_cases hab : a = '-' ∧ b = '-'
      · exact absurd hab h1.1
      · rw [show collapseD (a :: b :: r) = a :: collapseD (b :: r) by simp [collapseD, hab]]
        rw [ih h1.2]

theorem trimLeadOne_id (l : List Char) (h : l.head? ≠ some '-') :
    trimLeadOne l = l := by
  cases l with
  | nil => rfl
  | cons c rest =>
    rw [trimLeadOne_cons, if_neg]
    intro hc
    exact h (by rw [hc]; rfl)

theorem trimTrailOne_id (l : List Char) (h : l.getLast? ≠ some '-') :
    trimTrailOne l = l := by
  unfold trimTrailOne
  rw [trimLeadOne_id l.reverse (by rwa [List.head?_reverse]), List.reverse_reverse]

theorem generateUniqueSuffix_id_of_canonical (s : String) (h : canonicalToken s) :
    generateUniqueSuffix s = s := by
  obtain ⟨h1, h2, h3, h4, h5⟩ := h
  unfold generateUniqueSuffix
  rw [replaceNonAlnum_id s.data h2, collapseD_id_of_chain s.data h3,
    trimLeadOne_id s.data h4, trimTrailOne_id s.data h5, mapToLower_id s.data h2]

/-- C8 counterexample: two distinct host-path keys that one resolved
cache map can contain produce the same unique suffix, so the derived
ephemeral image names collide. -/
theorem generateUniqueSuffix_collision :
    generateUniqueSuffix ("a.b") = generateUniqueSuffix ("a-b") ∧
    ("a.b" : String) ≠ "a-b" ∧
    getCacheMap [("a.b", CacheOptions.str "/x"), ("a-b", CacheOptions.str "/y")] none [] =
      .ok [("a.b", CacheOptions.str "/x"), ("a-b", CacheOptions.str "/y")] :=
  ⟨rfl, by decide, rfl⟩

/-- C8 amended: on keys that are already canonical name tokens
(non-empty strings of lowercase alphanumerics and single dashes with no
dash at either edge) the unique-suffix transform is the identity, so two
distinct such keys always get distinct suffixes; distinct keys outside
that class can collide. -/
theorem generateUniqueSuffix_injective_on_canonical (s t : String)
    (hs : canonicalToken s) (ht : canonicalToken t) (hne : s ≠ t) :
    generateUniqueSuffix s ≠ generateUniqueSuffix t := by
  rw [generateUniqueSuffix_id_of_canonical s hs, generateUniqueSuffix_id_of_canonical t ht]
  exact hne

/-- C8 witness: the injectivity statement applied to the two Go cache
keys. -/
theorem generateUniqueSuffix_injective_on_canonical_app :
    generateUniqueSuffix ("go-mod") ≠ generateUniqueSuffix ("go-build") :=
  generateUniqueSuffix_injective_on_canonical ("go-mod") ("go-build")
    (by exact ⟨by decide, by decide, (chain_iff_noAdjDashB _).mpr (by decide),
      by decide, by decide⟩)
    (by exact ⟨by decide, by decide, (chain_iff_noAdjDashB _).mpr (by decide),
      by decide, by decide⟩)
    (by decide)

/-- C9 counterexample: a path whose normalized form merely starts with
two dots without containing a parent-directory segment is rejected by
the validator, although the claimed condition does not hold for it. -/
theorem validateSafePath_prefix_counterexample :
    validateSafePath ("..foo") ("p") =
      .error ("p contains path traversal sequence: ..foo") ∧
    posixIsAbsolute ("..foo") = false ∧
    hasParentSeg (posixNormalize ("..foo")) = false ∧
    (("..foo") : String).data.any dangerousChar = false :=
  ⟨rfl, rfl, by decide, by decide⟩

/-- C9 amended: the validator raises exactly when the path is absolute,
or its normalized form starts with the two characters dot-dot, or its
normalized form contains the substring slash-dot-dot, or the path
contains a forbidden shell metacharacter. -/
theorem validateSafePath_error_characterization (p label : String) :
    ((∃ e, validateSafePath p label = .error e) ↔
      (posixIsAbsolute p = true ∨
        List.isPrefixOf ['.', '.'] (normalizeCh p.data) = true ∨
        containsSeq ['/', '.', '.'] (normalizeCh p.data) = true ∨
        p.data.any dangerousChar = true)) ∧
    (validateSafePath p label = .ok () ↔
      ¬(posixIsAbsolute p = true ∨
        List.isPrefixOf ['.', '.'] (normalizeCh p.data) = true ∨
        containsSeq ['/', '.', '.'] (normalizeCh p.data) = true ∨
        p.data.any dangerousChar = true)) := by
  by_cases hA : posixIsAbsolute p = true
  · simp [validateSafePath, hA]
  · have hA2 : posixIsAbsolute p = false := Bool.eq_false_iff.mpr hA
    by_cases hB : List.isPrefixOf ['.', '.'] (normalizeCh p.data) = true
    · simp [validateSafePath, hA2, hB]
    · have hB2 : List.isPrefixOf ['.', '.'] (normalizeCh p.data) = false :=
        Bool.eq_false_iff.mpr hB
      by_cases hC : containsSeq ['/', '.', '.'] (normalizeCh p.data) = true
      · simp [validateSafePath, hA2, hB2, hC]
      · have hC2 : containsSeq ['/', '.', '.'] (normalizeCh p.data) = false :=
          Bool.eq_false_iff.mpr hC
        by_cases hD : p.data.any dangerousChar = true
        · simp [validateSafePath, hA2, hB2, hC2, hD]
        · have hD2 : p.data.any dangerousChar = false := Bool.eq_false_iff.mpr hD
          simp [validateSafePath, hA2, hB2, hC2, hD2]

/-- C10: the utility image is the user-specified one whenever it is
non-empty and differs from the default busybox image; otherwise it is
the rsync image exactly when rsync mode is on, and the default busybox
image otherwise — in particular, explicitly passing the default image
with rsync mode on still yields the rsync image. -/
theorem getUtilityImage_characterization :
    (∀ opts : Opts, opts.utilityImage ≠ "" → opts.utilityImage ≠ DEFAULT_UTILITY_IMAGE →
      getUtilityImage opts = opts.utilityImage) ∧
    (∀ opts : Opts, (opts.utilityImage = "" ∨ opts.utilityImage = DEFAULT_UTILITY_IMAGE) →
      getUtilityImage opts =
        (if isRsyncMode opts then RSYNC_UTILITY_IMAGE else DEFAULT_UTILITY_IMAGE)) ∧
    RSYNC_UTILITY_IMAGE ≠ DEFAULT_UTILITY_IMAGE := by
  refine ⟨?_, ?_, by decide⟩
  · intro opts hne hdef
    have hdata : opts.utilityImage.data ≠ [] := by
      intro hh
      apply hne
      have hrw : opts.utilityImage = String.mk opts.utilityImage.data := rfl
      rw [hrw, hh]
    have hemp : opts.utilityImage.data.isEmpty = false := by
      cases hc : opts.utilityImage.data with
      | nil => exact absurd hc hdata
      | cons a l => rfl
    unfold getUtilityImage
    rw [if_pos ⟨hemp, hdef⟩]
  · intro opts h
    have hcond : ¬(opts.utilityImage.data.isEmpty = false ∧
        opts.utilityImage ≠ DEFAULT_UTILITY_IMAGE) := by
      intro hcon
      obtain ⟨hc1, hc2⟩ := hcon
      rcases h with h1 | h1
      · rw [h1] at hc1
        exact absurd hc1 (by decide)
      · exact hc2 h1
    unfold getUtilityImage
    rw [if_neg hcond]

/-- C10 witness: a custom image wins over rsync mode, and the default
image with rsync mode on yields the rsync image. -/
theorem getUtilityImage_characterization_app :
    getUtilityImage (Opts.mk false ("{}") ("Dockerfile") none ("scratch") false
        ("custom/image:latest") (some "default") false true) = "custom/image:latest" ∧
    getUtilityImage (Opts.mk false ("{}") ("Dockerfile") none ("scratch") false
        DEFAULT_UTILITY_IMAGE (some "default") false true) = RSYNC_UTILITY_IMAGE := by
  constructor
  · exact getUtilityImage_characterization.1 _ (by decide) (by decide)
  · rw [getUtilityImage_characterization.2.1 _ (Or.inr rfl)]
    rfl

/-! ## Claim theorems on the transfer engine -/

/-- C3: the inject implementation of `src/inject-cache.ts` builds the
Dancefile with no validation gate, so a target path carrying shell
metacharacters reaches the generated recipe verbatim; the rsync-capable
inject implementation and the extract implementation reject the same
cache options before producing any recipe text. -/
theorem injectDancefileV1_unsanitized :
    (∃ d, injectDancefileV1 (CacheOptions.str ("/tmp/cache;rm -rf /tmp")) ("busybox") =
        .ok d ∧ containsSeq (";rm -rf /tmp").data d.data = true) ∧
    (∃ e, injectDancefile (CacheOptions.str ("/tmp/cache;rm -rf /tmp")) ("busybox") false =
      .error e) ∧
    (∃ e, extractDancefile (CacheOptions.str ("/tmp/cache;rm -rf /tmp")) ("busybox") =
      .error e) ∧
    (∃ e, sanitizeForDockerfile ("/tmp/cache;rm -rf /tmp") = .error e) := by
  refine ⟨⟨_, rfl, by decide⟩, ⟨_, rfl⟩, ⟨_, rfl⟩, ⟨_, rfl⟩⟩

theorem sanitizeForDockerfile_ok (v w : String) (h : sanitizeForDockerfile v = .ok w) :
    w = v := by
  unfold sanitizeForDockerfile at h
  split at h
  · injection h with h2
    exact h2.symm
  · cases h

/-- The rsync-capable inject implementation only generates a recipe
after both gates pass: a successful run certifies that the target path
and the mount-argument string were accepted by `sanitizeForDockerfile`. -/
theorem injectDancefile_gate (co : CacheOptions) (img : String) (r : Bool) (df : String)
    (h : injectDancefile co img r = .ok df) :
    sanitizeForDockerfile (getMountArgsString co) = .ok (getMountArgsString co) ∧
    ∃ t, getTargetPath co = .ok t ∧ sanitizeForDockerfile t = .ok t := by
  unfold injectDancefile at h
  simp only [bind, Except.bind] at h
  rcases h1 : getTargetPath co with e1 | t
  · rw [h1] at h
    simp at h
  · rw [h1] at h
    dsimp only at h
    rcases h2 : sanitizeForDockerfile t with e2 | t2
    · rw [h2] at h
      simp at h
    · rw [h2] at h
      dsimp only at h
      rcases h3 : sanitizeForDockerfile (getMountArgsString co) with e3 | m2
      · rw [h3] at h
        simp at h
      · have hm := sanitizeForDockerfile_ok (getMountArgsString co) m2 h3
        have ht := sanitizeForDockerfile_ok t t2 h2
        refine ⟨?_, t, rfl, ?_⟩
        · exact congrArg Except.ok hm
        · rw [ht] at h2
          exact h2

theorem extractTransfer_mem_build (r d : Bool) (eng : Action → Bool) (tr : List Action) :
    Action.build ∈ (extractTransfer r d eng tr).1 := by
  unfold extractTransfer
  cases hb : eng Action.build
  · simp [hb]
  · cases r
    · cases hc : eng Action.createContainer
      · simp [hb, hc]
      · cases hp : eng Action.pipedCopy
        · simp [hb, hc, hp]
        · cases hs : eng Action.sudoRmRfCacheSource
          · cases d <;> simp [hb, hc, hp, hs]
          · cases hr2 : eng Action.renameCache
            · cases d <;> simp [hb, hc, hp, hs, hr2]
            · cases d <;> simp [hb, hc, hp, hs, hr2]
    · cases hdr : eng Action.dockerRunRsync
      · simp [hb, hdr]
      · cases d <;> simp [hb, hdr]

theorem afterCreate_append_of_not_mem (tr rest : List Action)
    (hpre : Action.createContainer ∉ tr) :
    afterCreate (tr ++ rest) = afterCreate rest := by
  have hdrop : tr.dropWhile (· ≠ Action.createContainer) = [] := by
    rw [List.dropWhile_eq_nil_iff]
    intro x hx
    have hxne : x ≠ Action.createContainer := fun he => hpre (he ▸ hx)
    simp [hxne]
  unfold afterCreate
  congr 1
  rw [List.dropWhile_append, hdrop]
  simp

theorem extractTransfer_cp_success_mem (d : Bool) (eng : Action → Bool) (tr : List Action)
    (hpre : Action.createContainer ∉ tr)
    (hres : (extractTransfer false d eng tr).2 = .ok ()) :
    Action.rmContainer ∈
      afterCreate ((extractTransfer false d eng tr).1 ++ [Action.rmImage]) := by
  unfold extractTransfer at hres ⊢
  cases hb : eng Action.build
  · simp [hb] at hres
  · cases hc : eng Action.createContainer
    · simp [hb, hc] at hres
    · cases hp : eng Action.pipedCopy
      · simp [hb, hc, hp] at hres
      · cases hs : eng Action.sudoRmRfCacheSource
        · simp [hb, hc, hp, hs] at hres
        · cases hr2 : eng Action.renameCache
          · simp [hb, hc, hp, hs, hr2] at hres
          · cases d <;> simp [hb, hc, hp, hs, hr2] <;>
              rw [afterCreate_append_of_not_mem tr _ hpre] <;> decide

theorem extractCache_build_iff_rmImage (cs : String) (co : CacheOptions) (sd ci : String)
    (d r : Bool) (eng : Action → Bool) :
    Action.build ∈ (extractCache cs co sd ci d r eng).1 ↔
      Action.rmImage ∈ (extractCache cs co sd ci d r eng).1 := by
  unfold extractCache
  rcases h1 : validateSafePath cs ("cache source") with e1 | u1
  · simp
  rcases h2 : validateSafePath sd ("scratch directory") with e2 | u2
  · simp
  cases h3 : eng Action.fsRmScratch
  · simp [h3]
  cases h4 : eng Action.fsMkdirScratch
  · simp [h3, h4]
  cases h5 : eng Action.fsWriteBuildstamp
  · simp [h3, h4, h5]
  rcases h6 : extractDancefile co ci with e6 | df
  · simp [h3, h4, h5]
  cases h7 : eng Action.fsWriteDancefile
  · simp [h3, h4, h5, h7]
  cases h8 : eng Action.fsMkdirCacheSource
  · cases d <;> simp [h3, h4, h5, h7, h8]
  · cases d <;> simp [h3, h4, h5, h7, h8, extractTransfer_mem_build, List.mem_append]

theorem extractCache_cp_success_container (cs : String) (co : CacheOptions) (sd ci : String)
    (d : Bool) (eng : Action → Bool) :
    (extractCache cs co sd ci d false eng).2 = .ok () →
      Action.rmContainer ∈ afterCreate (extractCache cs co sd ci d false eng).1 := by
  unfold extractCache
  rcases h1 : validateSafePath cs ("cache source") with e1 | u1
  · simp
  rcases h2 : validateSafePath sd ("scratch directory") with e2 | u2
  · simp
  cases h3 : eng Action.fsRmScratch
  · simp [h3]
  cases h4 : eng Action.fsMkdirScratch
  · simp [h3, h4]
  cases h5 : eng Action.fsWriteBuildstamp
  · simp [h3, h4, h5]
  rcases h6 : extractDancefile co ci with e6 | df
  · simp [h3, h4, h5]
  cases h7 : eng Action.fsWriteDancefile
  · simp [h3, h4, h5, h7]
  cases h8 : eng Action.fsMkdirCacheSource
  · cases d <;> simp [h3, h4, h5, h7, h8]
  · cases d <;>
      exact fun hres => extractTransfer_cp_success_mem _ eng _ (by decide) hres

/-- C5 counterexample: with rsync mode off and an engine on which the
piped copy fails after the container was created, no container removal
is attempted after the creation — only the image removal of the finally
block runs — refuting the claim that container removal is attempted on
every exit path. -/
theorem extractCache_pipedFailure_counterexample :
    (extractCache ("go-mod") goModOptions ("scratch") ("img") false false
      engPipedCopyFails).2 = .error ("engine error: piped copy") ∧
    Action.createContainer ∈ (extractCache ("go-mod") goModOptions ("scratch") ("img")
      false false engPipedCopyFails).1 ∧
    Action.rmContainer ∉ afterCreate (extractCache ("go-mod") goModOptions ("scratch")
      ("img") false false engPipedCopyFails).1 ∧
    Action.rmImage ∈ (extractCache ("go-mod") goModOptions ("scratch") ("img")
      false false engPipedCopyFails).1 := by
  refine ⟨rfl, by decide, by decide, by decide⟩

/-- C5 amended: the throwaway image removal is attempted exactly on the
runs that entered the transfer phase, whichever way that phase exits;
the overall result and trace never depend on the engine answers for the
image and container removals, so removal failures are discarded; and in
bulk-copy mode a container removal after creation is attempted on every
successful run — but not on runs where a transfer step fails after the
container was created, as the counterexample shows. -/
theorem extractCache_cleanup_characterization :
    (∀ (cs : String) (co : CacheOptions) (sd ci : String) (d r : Bool)
      (eng : Action → Bool),
      Action.build ∈ (extractCache cs co sd ci d r eng).1 ↔
        Action.rmImage ∈ (extractCache cs co sd ci d r eng).1) ∧
    (∀ (cs : String) (co : CacheOptions) (sd ci : String) (d r : Bool)
      (eng : Action → Bool) (b c : Bool),
      extractCache cs co sd ci d r (cleanupOverride eng b c) =
        extractCache cs co sd ci d r eng) ∧
    (∀ (cs : String) (co : CacheOptions) (sd ci : String) (d : Bool)
      (eng : Action → Bool),
      (extractCache cs co sd ci d false eng).2 = .ok () →
        Action.rmContainer ∈ afterCreate (extractCache cs co sd ci d false eng).1) := by
  refine ⟨extractCache_build_iff_rmImage, fun cs co sd ci d r eng b c => rfl,
    extractCache_cp_success_container⟩

/-- C5 witness: the bulk-copy success clause applied to a fully
successful engine run. -/
theorem extractCache_cleanup_characterization_app :
    Action.rmContainer ∈ afterCreate (extractCache ("go-mod") goModOptions ("scratch")
      ("img") false false (fun _ => true)).1 :=
  extractCache_cleanup_characterization.2.2 ("go-mod") goModOptions ("scratch") ("img")
    false (fun _ => true) rfl

end CacheDance
